import Mathlib

/-
  Verification development for the hierarchical duration aggregator of
  Video-duration-stats.py.

  The script works on POSIX-style absolute path strings via os.path.dirname,
  os.path.basename, os.path.normpath.  We embed a normalized absolute path as
  the list of its components, so that "/" is [], "/R" is ["R"], "/R/a" is
  ["R", "a"].  Under this embedding:
    * os.path.dirname  is List.dropLast  (dirname of "/" is "/", i.e. [] -> []),
    * os.path.basename is the last component (basename of "/" is ""),
    * os.path.normpath is the identity (components are already normalized),
    * the count of the path separator used as the sort key in build_tree is
      monotone in the component-list length, and the induced sort order is
      observationally identical (children of one parent always tie).
  Durations are Python floats; we embed them as exact rationals, matching the
  spec's "non-negative real seconds".  A dict is embedded as an association
  list in insertion order, which models both dict iteration order and the
  membership/pop operations used by the script.
-/

namespace VDstats

/-- A normalized absolute path, as the list of its components. -/
abbrev Path := List String

/-- Embedding of os.path.dirname on normalized absolute paths. -/
def dirname (p : Path) : Path := p.dropLast

/-- Embedding of os.path.basename on normalized absolute paths. -/
def basename (p : Path) : String := (p.getLast?).getD ""

/-- Decides whether the directory a is an ancestor of (or equal to) b,
i.e. whether a is an initial segment of b's components. -/
def below : Path → Path → Bool
  | [], _ => true
  | _ :: _, [] => false
  | a :: as, b :: bs => a == b && below as bs

/-- The duration dict of the script: an association list of
directory path to accumulated duration, in insertion order. -/
abbrev DurMap := List (Path × ℚ)

/-- Keys of the dict, in insertion order. -/
def keysOf (m : DurMap) : List Path := m.map Prod.fst

/-- Membership test on a dict, as used by `parent not in merged_map`. -/
def containsKey : DurMap → Path → Bool
  | [], _ => false
  | (p, _) :: rest, k => p == k || containsKey rest k

/-- Lookup with default 0, as used by `folder_duration_map.get(c, 0)` and by
reading a defaultdict(float) entry. -/
def getD : DurMap → Path → ℚ
  | [], _ => 0
  | (p, q) :: rest, k => if p = k then q else getD rest k

/-- Embedding of `folder_duration_map[k] += v` on a defaultdict(float):
update the entry in place if present; otherwise append a new entry
(at the end, matching dict insertion order). -/
def addDur : DurMap → Path → ℚ → DurMap
  | [], k, v => [(k, v)]
  | (p, q) :: rest, k, v =>
      if p = k then (k, q + v) :: rest else (p, q) :: addDur rest k v

/-- Embedding of `merged_map.pop(child, None)`: remove the entry with the
given key (if any), keeping the order of the remaining entries. -/
def eraseKey (m : DurMap) (k : Path) : DurMap :=
  m.filter (fun e => !(e.1 == k))

/-- The sequence of directories visited by the upward-accumulation loop of
calculate_folder_durations (lines 42-49), started at current = cur:
credit cur, stop if cur is the scan root, stop if cur is its own parent
(the filesystem root), otherwise continue at the parent. -/
def ancestorsTo (root : Path) (cur : Path) : List Path :=
  if cur = root then [cur]
  else if _h : dirname cur = cur then [cur]
  else cur :: ancestorsTo root (dirname cur)
termination_by cur.length
decreasing_by
  cases cur with
  | nil => simp [dirname] at _h
  | cons a as => simp [dirname, List.length_dropLast]

/-- Embedding of the upward-accumulation while-loop of
calculate_folder_durations (lines 42-49) for one probed file:
`folder_duration_map[current_dir] += duration` for current_dir = cur, then
its parent, and so on, until the scan root has been credited (inclusive),
or until a directory equals its own parent (defensive stop at "/"). -/
def creditUp (root : Path) (duration : ℚ) (cur : Path) (m : DurMap) : DurMap :=
  let m1 := addDur m cur duration
  if cur = root then m1
  else if _h : dirname cur = cur then m1
  else creditUp root duration (dirname cur) m1
termination_by cur.length
decreasing_by
  cases cur with
  | nil => simp [dirname] at _h
  | cons a as => simp [dirname, List.length_dropLast]

/-- Embedding of the gather-and-accumulate loop of calculate_folder_durations
(lines 33-49).  The input list is the sequence of (path, duration) pairs in
the order the probe futures complete (get_video_duration returns the pair
(path, 0) on probe failure, so there is exactly one pair per scanned file).
Each pair is folded into the defaultdict by the upward-accumulation loop,
starting at the file's immediate parent directory. -/
def accumulate_durations (folder_path : Path) (results : List (Path × ℚ)) : DurMap :=
  results.foldl (fun m r => creditUp folder_path r.2 (dirname r.1) m) []

/-- Appends child c to the group of parent p, creating the group (at the end)
if absent: the embedding of `parent_map[parent].append(folder)` on a
defaultdict(list). -/
def addToGroup : List (Path × List Path) → Path → Path → List (Path × List Path)
  | [], p, c => [(p, [c])]
  | g :: rest, p, c =>
      if g.1 = p then (g.1, g.2 ++ [c]) :: rest else g :: addToGroup rest p c

/-- Embedding of the parent_map construction of merge_single_video_subfolder
(lines 58-61): group the dict's keys by their immediate parent, in insertion
order. -/
def parent_map (ks : List Path) : List (Path × List Path) :=
  ks.foldl (fun gs folder => addToGroup gs (dirname folder) folder) []

/-- Embedding of one iteration of the merging loop of
merge_single_video_subfolder (lines 65-74), for the parent_map item pc,
acting on the current merged_map: skip if the parent is not (any more) a key
of merged_map; otherwise pop the unique child with positive accumulated
duration, if there is exactly one.  Positivity is read from the original
folder_duration_map, as in the source. -/
def mergeStep (folder_duration_map : DurMap) (merged : DurMap)
    (pc : Path × List Path) : DurMap :=
  if containsKey merged pc.1 then
    match pc.2.filter (fun c => decide (0 < getD folder_duration_map c)) with
    | [c] => eraseKey merged c
    | _ => merged
  else merged

/-- Embedding of merge_single_video_subfolder (lines 54-76): group the keys
by parent, then fold the merging loop over the groups in dict iteration
order, starting from a copy of the input dict. -/
def merge_single_video_subfolder (folder_duration_map : DurMap) : DurMap :=
  (parent_map (keysOf folder_duration_map)).foldl
    (mergeStep folder_duration_map) folder_duration_map

/-- Embedding of calculate_folder_durations (lines 18-52) given the probe
results: if no mp4 file was found the function reports and returns the empty
dict; otherwise it accumulates every result upward and post-processes the
dict with merge_single_video_subfolder. -/
def calculate_folder_durations (folder_path : Path) (results : List (Path × ℚ)) : DurMap :=
  if results = [] then []
  else merge_single_video_subfolder (accumulate_durations folder_path results)

/-- Python's int() applied to a duration in seconds: for the nonnegative
durations this program handles, truncation toward zero is num / den. -/
def truncSec (q : ℚ) : ℕ := q.num.toNat / q.den

/-- Embedding of format_duration (lines 78-101): truncate to integer seconds,
split into h/m/s, always show the hour part, show minutes and seconds only
when positive, and fall back to "0秒" only if the parts list were empty
(which cannot happen, since the hour part is always present). -/
def format_duration (seconds : ℚ) : String :=
  let s0 : ℕ := truncSec seconds
  let h := s0 / 3600
  let m := (s0 % 3600) / 60
  let s := s0 % 60
  let parts : List String := [toString h ++ "小时"]
  let parts := if m > 0 then parts ++ [toString m ++ "分"] else parts
  let parts := if s > 0 then parts ++ [toString s ++ "秒"] else parts
  if parts = [] then "0秒" else String.intercalate " " parts

/-- Embedding of build_tree (lines 103-114): sort the keys shallow-first
(by the component count, a stable sort, as list.sort is), then attach every
non-root key to the group of its immediate parent. -/
def build_tree (folder_durations : DurMap) (root_folder : Path) : List (Path × List Path) :=
  let folders := List.insertionSort (fun a b : Path => a.length ≤ b.length)
    (keysOf folder_durations)
  folders.foldl
    (fun tree folder =>
      if folder = root_folder then tree else addToGroup tree (dirname folder) folder)
    []

/-- Lookup of a parent's child list in the built tree, as `tree.get(current, [])`. -/
def groupGet : List (Path × List Path) → Path → List Path
  | [], _ => []
  | g :: rest, k => if g.1 = k then g.2 else groupGet rest k

/-- Comparison of two children by base name, the sort key of the renderers
(lines 127 and 143): Python compares strings by code points, which is the
lexicographic order on the character lists. -/
def charListLe : List Char → List Char → Bool
  | [], _ => true
  | _ :: _, [] => false
  | a :: as, b :: bs => if a < b then true else if b < a then false else charListLe as bs

/-- The child order of the renderers: ascending by base name. -/
def childLe (a b : Path) : Prop := charListLe (basename a).data (basename b).data = true

instance childLe.instDecidableRel : DecidableRel childLe :=
  fun a b => instDecidableEqBool (charListLe (basename a).data (basename b).data) true

/-- Children of the current node in rendering order:
`sorted(tree.get(current, []), key=lambda x: os.path.basename(x))`
(a stable sort by base name). -/
def sortedChildren (tree : List (Path × List Path)) (current : Path) : List Path :=
  List.insertionSort childLe (groupGet tree current)

/-- The heading line emitted for one node by print_tree (line 124) and by
export_markdown's add_lines (line 142): (level+1) repetitions of the heading
mark, a space, the base name, two spaces, the formatted duration. -/
def heading_line (folder_durations : DurMap) (current : Path) (level : ℕ) : String :=
  String.mk (List.replicate (level + 1) '#') ++ " " ++ basename current ++ "  "
    ++ format_duration (getD folder_durations current)

/-- Embedding of the recursive print_tree (lines 116-128), collecting the
printed lines.  The recursion is driven by a fuel argument; treeFuel below
always exceeds the depth the traversal can reach, so the fuel never runs
out on the wrapper's calls. -/
def print_tree_from (folder_durations : DurMap) (tree : List (Path × List Path)) :
    ℕ → Path → ℕ → List String
  | 0, _, _ => []
  | fuel + 1, current, level =>
      heading_line folder_durations current level ::
        (sortedChildren tree current).flatMap
          (fun child => print_tree_from folder_durations tree fuel child (level + 1))

/-- Fuel bound for the renderers: one more than the largest component count
among the dict's keys and the root. -/
def treeFuel (folder_durations : DurMap) (root_folder : Path) : ℕ :=
  ((keysOf folder_durations).map List.length).foldr max root_folder.length + 1

/-- The full sequence of lines printed to the console by
print_tree(folder_durations, root_folder, build_tree(...)). -/
def print_tree (folder_durations : DurMap) (root_folder : Path) : List String :=
  print_tree_from folder_durations (build_tree folder_durations root_folder)
    (treeFuel folder_durations root_folder) root_folder 0

/-- Embedding of the nested add_lines of export_markdown (lines 140-144),
textually the same traversal as print_tree, appending to the lines list. -/
def add_lines_from (folder_durations : DurMap) (tree : List (Path × List Path)) :
    ℕ → Path → ℕ → List String
  | 0, _, _ => []
  | fuel + 1, current, level =>
      heading_line folder_durations current level ::
        (sortedChildren tree current).flatMap
          (fun child => add_lines_from folder_durations tree fuel child (level + 1))

/-- The lines collected by export_markdown (lines 130-149). -/
def export_markdown_lines (folder_durations : DurMap) (root_folder : Path) : List String :=
  add_lines_from folder_durations (build_tree folder_durations root_folder)
    (treeFuel folder_durations root_folder) root_folder 0

/-- The content written into the exported document by export_markdown
(line 149): the lines joined by a blank-line separator. -/
def export_markdown (folder_durations : DurMap) (root_folder : Path) : String :=
  String.intercalate "\n\n" (export_markdown_lines folder_durations root_folder)

/-- The sequence of nodes visited by the renderers' depth-first pre-order
traversal (print_tree and add_lines visit the same nodes in the same order). -/
def visited_from (tree : List (Path × List Path)) : ℕ → Path → List Path
  | 0, _ => []
  | fuel + 1, current =>
      current ::
        (sortedChildren tree current).flatMap
          (fun child => visited_from tree fuel child)

/-- The nodes rendered by the pipeline's tree output, in emission order. -/
def visitedNodes (folder_durations : DurMap) (root_folder : Path) : List Path :=
  visited_from (build_tree folder_durations root_folder)
    (treeFuel folder_durations root_folder) root_folder

/-- The console tree produced by the main block (lines 163-167) from the
probe results: aggregation, then tree rendering of the aggregated dict. -/
def main_console_tree (root_folder : Path) (results : List (Path × ℚ)) : List String :=
  print_tree (calculate_folder_durations root_folder results) root_folder

/-- The document content exported by the main block (lines 163-169). -/
def main_export_doc (root_folder : Path) (results : List (Path × ℚ)) : String :=
  export_markdown (calculate_folder_durations root_folder results) root_folder

/-- The keys of the dict ks whose immediate parent is P. -/
def childKeys (ks : List Path) (P : Path) : List Path :=
  ks.filter (fun k => dirname k == P)

/-- The keys of ks whose immediate parent is P and whose accumulated duration
in the dict orig is positive: the children counted by the merging loop. -/
def posChildKeys (orig : DurMap) (ks : List Path) (P : Path) : List Path :=
  ks.filter (fun k => dirname k == P && decide (0 < getD orig k))

/-- Invariant of the merging fold of merge_single_video_subfolder: mm is the
current merged_map, rest the still unprocessed parent_map items, m the input
dict.  Every parent P with a child among mm's keys is either still to be
processed with its children untouched, or already gone from mm, or already
processed with its positive-children count settled away from 1. -/
def MergeInv (m : DurMap) (rest : List (Path × List Path)) (mm : DurMap) : Prop :=
  mm.Sublist m ∧
  ∀ P, (∃ c ∈ keysOf mm, dirname c = P) →
    (P ∈ rest.map Prod.fst ∧ childKeys (keysOf mm) P = childKeys (keysOf m) P) ∨
    containsKey mm P = false ∨
    (P ∉ rest.map Prod.fst ∧ containsKey mm P = true ∧
      (posChildKeys m (keysOf mm) P).length ≠ 1)

/- ————————————————————————————————————————————————————————————————————————
   Lemmas about the path model.
   ———————————————————————————————————————————————————————————————————————— -/

theorem keysOf_nil : keysOf [] = [] := rfl

theorem keysOf_cons (e : Path × ℚ) (l : DurMap) : keysOf (e :: l) = e.1 :: keysOf l := rfl

theorem below_iff_take (a : Path) : ∀ b : Path, below a b = true ↔ b.take a.length = a := by
  induction a with
  | nil => intro b; simp [below]
  | cons x as ih =>
    intro b
    cases b with
    | nil => simp [below]
    | cons y bs =>
      rw [below, Bool.and_eq_true, beq_iff_eq, ih bs]
      simp only [List.length_cons, List.take_succ_cons, List.cons.injEq]
      constructor
      · rintro ⟨h1, h2⟩; exact ⟨h1.symm, h2⟩
      · rintro ⟨h1, h2⟩; exact ⟨h1.symm, h2⟩

theorem below_length {a b : Path} (h : below a b = true) : a.length ≤ b.length := by
  have h1 := (below_iff_take a b).mp h
  have h2 : (b.take a.length).length = a.length := by rw [h1]
  rw [List.length_take] at h2
  omega

theorem below_refl (p : Path) : below p p = true := by
  rw [below_iff_take]; simp

theorem below_trans {a b c : Path} (hab : below a b = true) (hbc : below b c = true) :
    below a c = true := by
  have hl : a.length ≤ b.length := below_length hab
  rw [below_iff_take] at hab hbc ⊢
  rw [← hbc] at hab
  rw [List.take_take] at hab
  rwa [min_eq_left hl] at hab

theorem below_antisymm {a b : Path} (hab : below a b = true) (hba : below b a = true) :
    a = b := by
  have hl : a.length = b.length := le_antisymm (below_length hab) (below_length hba)
  have h1 := (below_iff_take a b).mp hab
  rw [hl, List.take_length] at h1
  exact h1.symm

theorem dirname_below (b : Path) : below (dirname b) b = true := by
  rw [below_iff_take, dirname, List.dropLast_eq_take, List.length_take]
  congr 1
  omega

theorem below_dirname_of_ne {a b : Path} (h : below a b = true) (hne : a ≠ b) :
    below a (dirname b) = true := by
  have hl : a.length ≤ b.length := below_length h
  have hlt : a.length < b.length := by
    rcases lt_or_eq_of_le hl with hlt | heq
    · exact hlt
    · exfalso
      have h1 := (below_iff_take a b).mp h
      rw [heq, List.take_length] at h1
      exact hne h1.symm
  rw [below_iff_take] at h ⊢
  rw [dirname, List.dropLast_eq_take, List.take_take, min_eq_left (by omega)]
  exact h

theorem below_of_below_dirname {a b : Path} (h : below a (dirname b) = true) :
    below a b = true :=
  below_trans h (dirname_below b)

theorem dirname_eq_self_iff (p : Path) : dirname p = p ↔ p = [] := by
  cases p with
  | nil => simp [dirname]
  | cons x xs =>
    simp only [dirname]
    constructor
    · intro h
      have := congrArg List.length h
      simp [List.length_dropLast] at this
    · intro h; exact absurd h (by simp)

theorem below_take {a : Path} (n : ℕ) (h : n ≤ a.length) : below (a.take n) a = true := by
  rw [below_iff_take, List.length_take, min_eq_left h]

theorem dirname_take {a : Path} (n : ℕ) (h : n < a.length) :
    dirname (a.take (n + 1)) = a.take n := by
  rw [dirname, List.dropLast_eq_take, List.take_take, List.length_take]
  congr 1
  omega

/- ————————————————————————————————————————————————————————————————————————
   Lemmas about the dict operations.
   ———————————————————————————————————————————————————————————————————————— -/

theorem containsKey_iff (m : DurMap) (k : Path) :
    containsKey m k = true ↔ k ∈ keysOf m := by
  induction m with
  | nil => simp [containsKey, keysOf]
  | cons e rest ih =>
    rw [containsKey, keysOf_cons, Bool.or_eq_true, beq_iff_eq, ih, List.mem_cons]
    constructor
    · rintro (h | h)
      · exact Or.inl h.symm
      · exact Or.inr h
    · rintro (h | h)
      · exact Or.inl h.symm
      · exact Or.inr h

theorem getD_addDur (m : DurMap) (k : Path) (v : ℚ) (d : Path) :
    getD (addDur m k v) d = getD m d + (if d = k then v else 0) := by
  induction m with
  | nil =>
    by_cases h : d = k
    · subst h
      simp [addDur, getD]
    · simp [addDur, getD, h, Ne.symm h]
  | cons e rest ih =>
    obtain ⟨p, q⟩ := e
    rw [addDur]
    by_cases he : p = k
    · subst he
      rw [if_pos rfl, getD, getD]
      by_cases hd : p = d
      · rw [if_pos hd, if_pos hd, if_pos hd.symm]
      · rw [if_neg hd, if_neg hd, if_neg (fun hh : d = p => hd hh.symm)]
        ring
    · rw [if_neg he, getD, getD]
      by_cases hp : p = d
      · rw [if_pos hp, if_pos hp, if_neg (fun hh : d = k => he (hp.trans hh))]
        ring
      · rw [if_neg hp, if_neg hp, ih]

theorem mem_keysOf_addDur (m : DurMap) (k : Path) (v : ℚ) (d : Path) :
    d ∈ keysOf (addDur m k v) ↔ d ∈ keysOf m ∨ d = k := by
  induction m with
  | nil => simp [addDur, keysOf]
  | cons e rest ih =>
    obtain ⟨p, q⟩ := e
    rw [addDur]
    by_cases he : p = k
    · subst he
      rw [if_pos rfl, keysOf_cons, keysOf_cons]
      simp only [List.mem_cons]
      constructor
      · rintro (h | h)
        · exact Or.inl (Or.inl h)
        · exact Or.inl (Or.inr h)
      · rintro ((h | h) | h)
        · exact Or.inl h
        · exact Or.inr h
        · exact Or.inl h
    · rw [if_neg he, keysOf_cons, keysOf_cons]
      simp only [List.mem_cons, ih]
      tauto

theorem keysOf_filterKey (m : DurMap) (pf : Path → Bool) :
    keysOf (m.filter (fun e => pf e.1)) = (keysOf m).filter pf := by
  induction m with
  | nil => rfl
  | cons e rest ih =>
    rw [List.filter_cons, keysOf_cons, List.filter_cons]
    by_cases h : pf e.1 = true
    · rw [if_pos h, if_pos h, keysOf_cons, ih]
    · rw [if_neg h, if_neg h, ih]

theorem keysOf_eraseKey (m : DurMap) (k : Path) :
    keysOf (eraseKey m k) = (keysOf m).filter (fun x => !(x == k)) :=
  keysOf_filterKey m (fun x => !(x == k))

theorem containsKey_eraseKey (m : DurMap) (k x : Path) :
    containsKey (eraseKey m k) x = (containsKey m x && !(x == k)) := by
  have hiff : containsKey (eraseKey m k) x = true ↔
      (containsKey m x && !(x == k)) = true := by
    rw [containsKey_iff, keysOf_eraseKey, List.mem_filter, Bool.and_eq_true,
      containsKey_iff]
  rcases hb : (containsKey m x && !(x == k)) with _ | _
  · rw [hb] at hiff
    rw [Bool.eq_false_iff]
    intro hc
    exact Bool.false_ne_true (hiff.mp hc)
  · rw [hb] at hiff
    exact hiff.mpr rfl

theorem eraseKey_sublist (m : DurMap) (k : Path) : (eraseKey m k).Sublist m :=
  List.filter_sublist m

theorem keysOf_sublist {mm m : DurMap} (h : mm.Sublist m) :
    (keysOf mm).Sublist (keysOf m) :=
  List.Sublist.map Prod.fst h

theorem containsKey_of_sublist {mm m : DurMap} (h : mm.Sublist m) {k : Path}
    (hk : containsKey mm k = true) : containsKey m k = true := by
  rw [containsKey_iff] at hk ⊢
  exact (keysOf_sublist h).mem hk

theorem getD_sublist {mm m : DurMap} (hnd : (keysOf m).Nodup) (h : mm.Sublist m)
    {k : Path} (hk : containsKey mm k = true) : getD mm k = getD m k := by
  induction h with
  | slnil => rfl
  | cons e hsub ih =>
    rw [keysOf_cons, List.nodup_cons] at hnd
    by_cases he : e.1 = k
    · exfalso
      rw [containsKey_iff] at hk
      exact hnd.1 (he ▸ (keysOf_sublist hsub).mem hk)
    · rw [getD, if_neg he]
      exact ih hnd.2 hk
  | cons₂ e hsub ih =>
    rw [keysOf_cons, List.nodup_cons] at hnd
    by_cases he : e.1 = k
    · rw [getD, getD, if_pos he, if_pos he]
    · rw [getD, getD, if_neg he, if_neg he]
      rw [containsKey, Bool.or_eq_true] at hk
      rcases hk with hk | hk
      · exact absurd (by simpa using hk) he
      · exact ih hnd.2 hk

/- ————————————————————————————————————————————————————————————————————————
   Lemmas about the upward accumulator.
   ———————————————————————————————————————————————————————————————————————— -/

theorem below_nil_right (a : Path) : below a [] = true ↔ a = [] := by
  cases a with
  | nil => simp [below]
  | cons x xs => simp [below]

theorem ancestorsTo_length_le (root : Path) :
    ∀ cur : Path, ∀ d ∈ ancestorsTo root cur, d.length ≤ cur.length := by
  intro cur
  refine ancestorsTo.induct root
    (fun c => ∀ d ∈ ancestorsTo root c, d.length ≤ c.length) ?_ ?_ ?_ cur
  · intro d hd
    rw [ancestorsTo, if_pos rfl] at hd
    simp at hd
    simp [hd]
  · intro x h1 h2 d hd
    rw [ancestorsTo, if_neg h1, dif_pos h2] at hd
    simp at hd
    simp [hd]
  · intro x h1 h2 ih d hd
    rw [ancestorsTo, if_neg h1, dif_neg h2] at hd
    rcases List.mem_cons.mp hd with rfl | hd
    · exact le_refl _
    · have h3 := ih d hd
      have h4 : (dirname x).length ≤ x.length := by
        rw [dirname]
        cases x with
        | nil => simp
        | cons y ys => simp [List.length_dropLast]
      omega

theorem mem_ancestorsTo (root : Path) :
    ∀ cur d : Path, below root cur = true →
      (d ∈ ancestorsTo root cur ↔ (below d cur = true ∧ below root d = true)) := by
  intro cur
  refine ancestorsTo.induct root
    (fun c => ∀ d : Path, below root c = true →
      (d ∈ ancestorsTo root c ↔ (below d c = true ∧ below root d = true))) ?_ ?_ ?_ cur
  · intro d _
    rw [ancestorsTo, if_pos rfl]
    simp only [List.mem_singleton]
    constructor
    · rintro rfl
      exact ⟨below_refl _, below_refl _⟩
    · rintro ⟨hx1, hx2⟩
      exact below_antisymm hx1 hx2
  · intro x h1 h2 d hb
    exfalso
    rw [dirname_eq_self_iff] at h2
    subst h2
    rw [below_nil_right] at hb
    exact h1 hb.symm
  · intro x h1 h2 ih d hb
    have hd : below root (dirname x) = true :=
      below_dirname_of_ne hb (fun hh => h1 hh.symm)
    rw [ancestorsTo, if_neg h1, dif_neg h2, List.mem_cons, ih d hd]
    constructor
    · rintro (rfl | ⟨h3, h4⟩)
      · exact ⟨below_refl _, hb⟩
      · exact ⟨below_of_below_dirname h3, h4⟩
    · rintro ⟨h3, h4⟩
      by_cases hc : d = x
      · exact Or.inl hc
      · exact Or.inr ⟨below_dirname_of_ne h3 hc, h4⟩

theorem root_mem_ancestorsTo {root cur : Path} (h : below root cur = true) :
    root ∈ ancestorsTo root cur :=
  (mem_ancestorsTo root cur root h).mpr ⟨h, below_refl root⟩

theorem below_of_mem_ancestorsTo {root cur d : Path} (h : below root cur = true)
    (hd : d ∈ ancestorsTo root cur) : below root d = true :=
  ((mem_ancestorsTo root cur d h).mp hd).2

theorem ancestorsTo_stop1 (root : Path) : ancestorsTo root root = [root] := by
  rw [ancestorsTo]
  simp

theorem ancestorsTo_stop2 (root : Path) (cur : Path) (h1 : cur ≠ root)
    (h2 : dirname cur = cur) : ancestorsTo root cur = [cur] := by
  rw [ancestorsTo]
  simp [h1, h2]

theorem ancestorsTo_step (root : Path) (cur : Path) (h1 : cur ≠ root)
    (h2 : dirname cur ≠ cur) :
    ancestorsTo root cur = cur :: ancestorsTo root (dirname cur) := by
  rw [ancestorsTo]
  simp [h1, h2]

theorem creditUp_stop1 (root : Path) (v : ℚ) (m : DurMap) :
    creditUp root v root m = addDur m root v := by
  rw [creditUp]
  simp

theorem creditUp_stop2 (root : Path) (v : ℚ) (cur : Path) (m : DurMap)
    (h1 : cur ≠ root) (h2 : dirname cur = cur) :
    creditUp root v cur m = addDur m cur v := by
  rw [creditUp]
  simp [h1, h2]

theorem creditUp_step (root : Path) (v : ℚ) (cur : Path) (m : DurMap)
    (h1 : cur ≠ root) (h2 : dirname cur ≠ cur) :
    creditUp root v cur m = creditUp root v (dirname cur) (addDur m cur v) := by
  rw [creditUp]
  simp [h1, h2]

theorem getD_creditUp (root : Path) (v : ℚ) (d : Path) :
    ∀ (cur : Path) (m : DurMap),
      getD (creditUp root v cur m) d
        = getD m d + (if d ∈ ancestorsTo root cur then v else 0) := by
  intro cur
  refine ancestorsTo.induct root
    (fun c => ∀ m : DurMap,
      getD (creditUp root v c m) d
        = getD m d + (if d ∈ ancestorsTo root c then v else 0)) ?_ ?_ ?_ cur
  · intro m
    rw [creditUp_stop1, ancestorsTo_stop1, getD_addDur]
    simp
  · intro x h1 h2 m
    rw [creditUp_stop2 root v x m h1 h2, ancestorsTo_stop2 root x h1 h2, getD_addDur]
    simp
  · intro x h1 h2 ih m
    rw [creditUp_step root v x m h1 h2, ih, getD_addDur,
      ancestorsTo_step root x h1 h2]
    have hdisj : ¬ (d = x ∧ d ∈ ancestorsTo root (dirname x)) := by
      rintro ⟨hdx, hmem⟩
      have h3 := ancestorsTo_length_le root (dirname x) d hmem
      have h4 : x ≠ [] := fun hc => h2 (by rw [hc]; rfl)
      have h5 : (dirname x).length < x.length := by
        rw [dirname]
        cases x with
        | nil => exact absurd rfl h4
        | cons y ys => simp [List.length_dropLast]
      rw [hdx] at h3
      omega
    by_cases hc : d = x
    · have hnm : d ∉ ancestorsTo root (dirname x) := fun hm => hdisj ⟨hc, hm⟩
      rw [if_pos hc, if_neg hnm, if_pos (List.mem_cons.mpr (Or.inl hc))]
      ring
    · rw [if_neg hc]
      by_cases hm : d ∈ ancestorsTo root (dirname x)
      · rw [if_pos hm, if_pos (List.mem_cons_of_mem _ hm)]
        ring
      · rw [if_neg hm, if_neg (by simp [hc, hm])]
        ring

theorem mem_keysOf_creditUp (root : Path) (v : ℚ) (d : Path) :
    ∀ (cur : Path) (m : DurMap),
      d ∈ keysOf (creditUp root v cur m) ↔
        d ∈ keysOf m ∨ d ∈ ancestorsTo root cur := by
  intro cur
  refine ancestorsTo.induct root
    (fun c => ∀ m : DurMap,
      d ∈ keysOf (creditUp root v c m) ↔
        d ∈ keysOf m ∨ d ∈ ancestorsTo root c) ?_ ?_ ?_ cur
  · intro m
    rw [creditUp_stop1, ancestorsTo_stop1, mem_keysOf_addDur]
    simp
  · intro x h1 h2 m
    rw [creditUp_stop2 root v x m h1 h2, ancestorsTo_stop2 root x h1 h2, mem_keysOf_addDur]
    simp
  · intro x h1 h2 ih m
    rw [creditUp_step root v x m h1 h2, ih, mem_keysOf_addDur,
      ancestorsTo_step root x h1 h2, List.mem_cons]
    tauto

theorem getD_accum_foldl (root : Path) (d : Path) :
    ∀ (results : List (Path × ℚ)) (m : DurMap),
      getD (results.foldl (fun mm r => creditUp root r.2 (dirname r.1) mm) m) d
        = getD m d +
          (results.map
            (fun r => if d ∈ ancestorsTo root (dirname r.1) then r.2 else 0)).sum := by
  intro results
  induction results with
  | nil =>
    intro m
    simp
  | cons r rs ih =>
    intro m
    rw [List.foldl_cons, ih, getD_creditUp, List.map_cons, List.sum_cons]
    ring

theorem getD_accumulate (root : Path) (results : List (Path × ℚ)) (d : Path) :
    getD (accumulate_durations root results) d
      = (results.map
          (fun r => if d ∈ ancestorsTo root (dirname r.1) then r.2 else 0)).sum := by
  rw [accumulate_durations, getD_accum_foldl]
  rw [getD]
  ring

theorem mem_keysOf_accum_foldl (root : Path) (d : Path) :
    ∀ (results : List (Path × ℚ)) (m : DurMap),
      d ∈ keysOf (results.foldl (fun mm r => creditUp root r.2 (dirname r.1) mm) m) ↔
        d ∈ keysOf m ∨ ∃ r ∈ results, d ∈ ancestorsTo root (dirname r.1) := by
  intro results
  induction results with
  | nil =>
    intro m
    simp
  | cons r rs ih =>
    intro m
    rw [List.foldl_cons, ih, mem_keysOf_creditUp]
    simp only [List.mem_cons]
    constructor
    · rintro ((h | h) | ⟨x, hx, hm⟩)
      · exact Or.inl h
      · exact Or.inr ⟨r, Or.inl rfl, h⟩
      · exact Or.inr ⟨x, Or.inr hx, hm⟩
    · rintro (h | ⟨x, (rfl | hx), hm⟩)
      · exact Or.inl (Or.inl h)
      · exact Or.inl (Or.inr hm)
      · exact Or.inr ⟨x, hx, hm⟩

theorem mem_keysOf_accumulate (root : Path) (results : List (Path × ℚ)) (d : Path) :
    d ∈ keysOf (accumulate_durations root results) ↔
      ∃ r ∈ results, d ∈ ancestorsTo root (dirname r.1) := by
  rw [accumulate_durations, mem_keysOf_accum_foldl]
  simp [keysOf]

/- ————————————————————————————————————————————————————————————————————————
   Lemmas about the grouping of keys by parent (defaultdict(list) folds).
   ———————————————————————————————————————————————————————————————————————— -/

theorem groupGet_addToGroup (gs : List (Path × List Path)) (p c P : Path) :
    groupGet (addToGroup gs p c) P
      = groupGet gs P ++ (if p = P then [c] else []) := by
  induction gs with
  | nil =>
    by_cases h : p = P
    · simp [addToGroup, groupGet, h]
    · simp [addToGroup, groupGet, h]
  | cons g rest ih =>
    obtain ⟨q, l⟩ := g
    rw [addToGroup]
    by_cases hq : q = p
    · rw [if_pos hq, groupGet, groupGet]
      by_cases hP : q = P
      · rw [if_pos hP, if_pos hP, if_pos (hq.symm.trans hP)]
      · rw [if_neg hP, if_neg hP, if_neg (fun hh => hP (hq.trans hh))]
        simp
    · rw [if_neg hq, groupGet, groupGet]
      by_cases hP : q = P
      · rw [if_pos hP, if_pos hP, if_neg (fun hh : p = P => hq (hP.trans hh.symm))]
        simp
      · rw [if_neg hP, if_neg hP, ih]

theorem fst_addToGroup (gs : List (Path × List Path)) (p c : Path) :
    (addToGroup gs p c).map Prod.fst
      = if p ∈ gs.map Prod.fst then gs.map Prod.fst else gs.map Prod.fst ++ [p] := by
  induction gs with
  | nil => simp [addToGroup]
  | cons g rest ih =>
    obtain ⟨q, l⟩ := g
    rw [addToGroup]
    by_cases hq : q = p
    · subst hq
      rw [if_pos rfl]
      simp
    · rw [if_neg hq, List.map_cons, List.map_cons, ih]
      by_cases hp : p ∈ rest.map Prod.fst
      · rw [if_pos hp, if_pos (by simp [hp])]
      · rw [if_neg hp, if_neg (by simp [hp]; exact fun h => hq h.symm)]
        simp

theorem mem_fst_addToGroup (gs : List (Path × List Path)) (p c P : Path) :
    P ∈ (addToGroup gs p c).map Prod.fst ↔ P ∈ gs.map Prod.fst ∨ P = p := by
  rw [fst_addToGroup]
  by_cases h : p ∈ gs.map Prod.fst
  · rw [if_pos h]
    constructor
    · exact Or.inl
    · rintro (h1 | rfl)
      · exact h1
      · exact h
  · rw [if_neg h]
    simp

theorem nodup_fst_addToGroup {gs : List (Path × List Path)} (p c : Path)
    (h : (gs.map Prod.fst).Nodup) : ((addToGroup gs p c).map Prod.fst).Nodup := by
  rw [fst_addToGroup]
  by_cases hp : p ∈ gs.map Prod.fst
  · rw [if_pos hp]
    exact h
  · rw [if_neg hp]
    rw [List.nodup_append]
    exact ⟨h, List.nodup_singleton p, by simp [hp]⟩

theorem groupGet_of_mem :
    ∀ (gs : List (Path × List Path)) (P : Path) (l : List Path),
      (gs.map Prod.fst).Nodup → (P, l) ∈ gs → groupGet gs P = l := by
  intro gs
  induction gs with
  | nil => intro P l _ h; simp at h
  | cons g rest ih =>
    intro P l hnd h
    obtain ⟨q, l2⟩ := g
    rw [List.map_cons, List.nodup_cons] at hnd
    rcases List.mem_cons.mp h with h1 | h1
    · rw [groupGet]
      have hq : q = P := by
        have := congrArg Prod.fst h1.symm
        simpa using this
      rw [if_pos hq]
      have := congrArg Prod.snd h1.symm
      simpa using this
    · rw [groupGet]
      have hP : q ≠ P := by
        intro hh
        subst hh
        exact hnd.1 (by simpa using List.mem_map_of_mem Prod.fst h1)
      rw [if_neg hP]
      exact ih P l hnd.2 h1

theorem mem_fst_groupFold (f : Path → Path) :
    ∀ (ks : List Path) (gs : List (Path × List Path)) (P : Path),
      P ∈ ((ks.foldl (fun tr k => addToGroup tr (f k) k) gs).map Prod.fst) ↔
        P ∈ gs.map Prod.fst ∨ ∃ k ∈ ks, f k = P := by
  intro ks
  induction ks with
  | nil =>
    intro gs P
    simp
  | cons k rest ih =>
    intro gs P
    rw [List.foldl_cons, ih, mem_fst_addToGroup]
    simp only [List.mem_cons]
    constructor
    · rintro ((h | h) | ⟨x, hx, hP⟩)
      · exact Or.inl h
      · exact Or.inr ⟨k, Or.inl rfl, h.symm⟩
      · exact Or.inr ⟨x, Or.inr hx, hP⟩
    · rintro (h | ⟨x, (rfl | hx), hP⟩)
      · exact Or.inl (Or.inl h)
      · exact Or.inl (Or.inr hP.symm)
      · exact Or.inr ⟨x, hx, hP⟩

theorem nodup_fst_groupFold (f : Path → Path) :
    ∀ (ks : List Path) (gs : List (Path × List Path)),
      (gs.map Prod.fst).Nodup →
        ((ks.foldl (fun tr k => addToGroup tr (f k) k) gs).map Prod.fst).Nodup := by
  intro ks
  induction ks with
  | nil =>
    intro gs h
    exact h
  | cons k rest ih =>
    intro gs h
    rw [List.foldl_cons]
    exact ih _ (nodup_fst_addToGroup _ _ h)

theorem groupGet_groupFold (f : Path → Path) :
    ∀ (ks : List Path) (gs : List (Path × List Path)) (P : Path),
      groupGet (ks.foldl (fun tr k => addToGroup tr (f k) k) gs) P
        = groupGet gs P ++ ks.filter (fun k => f k == P) := by
  intro ks
  induction ks with
  | nil =>
    intro gs P
    simp
  | cons k rest ih =>
    intro gs P
    rw [List.foldl_cons, ih, groupGet_addToGroup, List.filter_cons]
    by_cases h : f k = P
    · rw [if_pos h, if_pos (by simpa using h)]
      simp
    · rw [if_neg h, if_neg (by simpa using h)]
      simp

theorem groupGet_parent_map (ks : List Path) (P : Path) :
    groupGet (parent_map ks) P = ks.filter (fun k => dirname k == P) := by
  rw [parent_map, groupGet_groupFold]
  rw [groupGet]
  simp

theorem nodup_fst_parent_map (ks : List Path) :
    ((parent_map ks).map Prod.fst).Nodup := by
  rw [parent_map]
  exact nodup_fst_groupFold dirname ks [] (by simp)

theorem mem_fst_parent_map (ks : List Path) (P : Path) :
    P ∈ (parent_map ks).map Prod.fst ↔ ∃ k ∈ ks, dirname k = P := by
  rw [parent_map, mem_fst_groupFold]
  simp

theorem parent_map_group_eq {ks : List Path} {pc : Path × List Path}
    (h : pc ∈ parent_map ks) :
    pc.2 = ks.filter (fun k => dirname k == pc.1) := by
  have h1 : groupGet (parent_map ks) pc.1 = pc.2 :=
    groupGet_of_mem (parent_map ks) pc.1 pc.2 (nodup_fst_parent_map ks)
      (by simpa using h)
  rw [← h1, groupGet_parent_map]

theorem parent_map_group_ne_nil {ks : List Path} {pc : Path × List Path}
    (h : pc ∈ parent_map ks) : pc.2 ≠ [] := by
  have h1 : pc.1 ∈ (parent_map ks).map Prod.fst := List.mem_map_of_mem Prod.fst h
  rw [mem_fst_parent_map] at h1
  obtain ⟨k, hk, hdk⟩ := h1
  rw [parent_map_group_eq h]
  intro hc
  have : k ∈ ks.filter (fun k => dirname k == pc.1) :=
    List.mem_filter.mpr ⟨hk, by simp [hdk]⟩
  rw [hc] at this
  simp at this

/- ————————————————————————————————————————————————————————————————————————
   Lemmas about the pass-through collapser.
   ———————————————————————————————————————————————————————————————————————— -/

theorem mergeStep_skip (orig mm : DurMap) (pc : Path × List Path)
    (h : containsKey mm pc.1 = false) : mergeStep orig mm pc = mm := by
  rw [mergeStep, if_neg (by simp [h])]

theorem mergeStep_single (orig mm : DurMap) (pc : Path × List Path) (c : Path)
    (h : containsKey mm pc.1 = true)
    (hfil : pc.2.filter (fun c => decide (0 < getD orig c)) = [c]) :
    mergeStep orig mm pc = eraseKey mm c := by
  rw [mergeStep, if_pos h, hfil]

theorem mergeStep_keep (orig mm : DurMap) (pc : Path × List Path)
    (h : (pc.2.filter (fun c => decide (0 < getD orig c))).length ≠ 1) :
    mergeStep orig mm pc = mm := by
  rw [mergeStep]
  by_cases hc : containsKey mm pc.1 = true
  · rw [if_pos hc]
    rcases hl : pc.2.filter (fun c => decide (0 < getD orig c)) with _ | ⟨c1, cs⟩
    · rfl
    · rcases cs with _ | ⟨c2, cs2⟩
      · rw [hl] at h
        simp at h
      · rfl
  · rw [if_neg hc]

theorem mergeStep_sublist (orig mm : DurMap) (pc : Path × List Path) :
    (mergeStep orig mm pc).Sublist mm := by
  by_cases hc : containsKey mm pc.1 = true
  · rcases hl : pc.2.filter (fun c => decide (0 < getD orig c)) with _ | ⟨c1, cs⟩
    · rw [mergeStep_keep orig mm pc (by rw [hl]; simp)]
    · rcases cs with _ | ⟨c2, cs2⟩
      · rw [mergeStep_single orig mm pc c1 hc hl]
        exact eraseKey_sublist mm c1
      · rw [mergeStep_keep orig mm pc (by rw [hl]; simp)]
  · rw [mergeStep_skip orig mm pc (by simpa using hc)]

theorem mergeFold_sublist (orig : DurMap) :
    ∀ (gs : List (Path × List Path)) (mm : DurMap),
      (gs.foldl (mergeStep orig) mm).Sublist mm := by
  intro gs
  induction gs with
  | nil => intro mm; exact List.Sublist.refl mm
  | cons g rest ih =>
    intro mm
    rw [List.foldl_cons]
    exact (ih (mergeStep orig mm g)).trans (mergeStep_sublist orig mm g)

theorem merge_sublist (m : DurMap) :
    (merge_single_video_subfolder m).Sublist m := by
  rw [merge_single_video_subfolder]
  exact mergeFold_sublist m _ m

theorem filter_swap (p q : Path → Bool) (l : List Path) :
    (l.filter p).filter q = (l.filter q).filter p := by
  rw [List.filter_filter, List.filter_filter]
  exact List.filter_congr (fun x _ => Bool.and_comm _ _)

theorem posChildKeys_eq_filter (orig : DurMap) (ks : List Path) (P : Path) :
    (ks.filter (fun k => dirname k == P)).filter
        (fun c => decide (0 < getD orig c))
      = posChildKeys orig ks P := by
  rw [List.filter_filter, posChildKeys]
  exact List.filter_congr (fun x _ => Bool.and_comm _ _)

theorem posChildKeys_sublist (orig : DurMap) {ks1 ks2 : List Path} (P : Path)
    (h : ks1.Sublist ks2) :
    (posChildKeys orig ks1 P).Sublist (posChildKeys orig ks2 P) :=
  List.Sublist.filter _ h

theorem childKeys_eraseKey_ne (mm : DurMap) (c P : Path) (h : dirname c ≠ P) :
    childKeys (keysOf (eraseKey mm c)) P = childKeys (keysOf mm) P := by
  rw [keysOf_eraseKey, childKeys, childKeys, List.filter_filter]
  apply List.filter_congr
  intro x _
  by_cases hx : dirname x = P
  · have hxc : ¬ (x = c) := fun hh => h (by rw [← hh]; exact hx)
    simp [hx, hxc]
  · simp [hx]

theorem posChildKeys_eraseKey (orig mm : DurMap) (c P : Path) :
    posChildKeys orig (keysOf (eraseKey mm c)) P
      = (posChildKeys orig (keysOf mm) P).filter (fun x => !(x == c)) := by
  rw [keysOf_eraseKey, posChildKeys, posChildKeys, List.filter_filter,
    List.filter_filter]
  exact List.filter_congr (fun x _ => by rw [Bool.and_comm])

theorem mem_posChildKeys {orig : DurMap} {ks : List Path} {P c : Path}
    (h : c ∈ posChildKeys orig ks P) :
    c ∈ ks ∧ dirname c = P ∧ 0 < getD orig c := by
  rw [posChildKeys, List.mem_filter] at h
  refine ⟨h.1, ?_, ?_⟩
  · have := h.2
    simp at this
    exact this.1
  · have := h.2
    simp at this
    exact this.2

theorem mergeFold_remove (orig : DurMap) :
    ∀ (gs : List (Path × List Path)) (mm : DurMap) (d : Path),
      (∀ pc ∈ gs, pc.2 = (keysOf orig).filter (fun k => dirname k == pc.1)) →
      containsKey mm d = true →
      containsKey (gs.foldl (mergeStep orig) mm) d = false →
      containsKey mm (dirname d) = true ∧
        posChildKeys orig (keysOf orig) (dirname d) = [d] := by
  intro gs
  induction gs with
  | nil =>
    intro mm d _ h1 h2
    rw [List.foldl_nil] at h2
    rw [h1] at h2
    exact absurd h2 (by simp)
  | cons g rest ih =>
    intro mm d hchar h1 h2
    rw [List.foldl_cons] at h2
    by_cases hstep : containsKey (mergeStep orig mm g) d = true
    · have h3 := ih (mergeStep orig mm g) d
        (fun pc hpc => hchar pc (List.mem_cons_of_mem _ hpc)) hstep h2
      exact ⟨containsKey_of_sublist (mergeStep_sublist orig mm g) h3.1, h3.2⟩
    · by_cases hck : containsKey mm g.1 = true
      · rcases hl : g.2.filter (fun c => decide (0 < getD orig c)) with _ | ⟨c1, cs⟩
        · rw [mergeStep_keep orig mm g (by rw [hl]; simp)] at hstep
          exact absurd h1 (by simp [hstep])
        · rcases cs with _ | ⟨c2, cs2⟩
          · rw [mergeStep_single orig mm g c1 hck hl] at hstep
            rw [containsKey_eraseKey] at hstep
            have hdc : d = c1 := by
              rcases hbeq : (d == c1) with _ | _
              · rw [h1, hbeq] at hstep
                simp at hstep
              · simpa using hbeq
            subst hdc
            have hfil : posChildKeys orig (keysOf orig) g.1 = [d] := by
              rw [← posChildKeys_eq_filter, ← hchar g (List.mem_cons_self g rest), hl]
            have hmem : d ∈ posChildKeys orig (keysOf orig) g.1 := by
              rw [hfil]
              simp
            have hdir : dirname d = g.1 := (mem_posChildKeys hmem).2.1
            rw [hdir]
            exact ⟨hck, hfil⟩
          · rw [mergeStep_keep orig mm g (by rw [hl]; simp)] at hstep
            exact absurd h1 (by simp [hstep])
      · rw [mergeStep_skip orig mm g (by simpa using hck)] at hstep
        exact absurd h1 (by simp [hstep])

theorem posChildKeys_eq (orig : DurMap) (ks : List Path) (P : Path) :
    posChildKeys orig ks P
      = (childKeys ks P).filter (fun c => decide (0 < getD orig c)) :=
  (posChildKeys_eq_filter orig ks P).symm

theorem mergeInv_keep (m : DurMap) (g : Path × List Path)
    (rest : List (Path × List Path)) (mm : DurMap)
    (hgchar : g.2 = (keysOf m).filter (fun k => dirname k == g.1))
    (hgnotin : g.1 ∉ rest.map Prod.fst)
    (hinv : MergeInv m (g :: rest) mm)
    (hres : containsKey mm g.1 = false ∨
      (g.2.filter (fun c => decide (0 < getD m c))).length ≠ 1) :
    MergeInv m rest mm := by
  obtain ⟨hsub, hP⟩ := hinv
  refine ⟨hsub, ?_⟩
  intro P hex
  rcases hP P hex with ⟨hin, hch⟩ | hfalse | ⟨hnin, hcc, hlen2⟩
  · by_cases hPg : P = g.1
    · subst hPg
      by_cases hcc : containsKey mm g.1 = true
      · right; right
        refine ⟨hgnotin, hcc, ?_⟩
        have heq : posChildKeys m (keysOf mm) g.1
            = g.2.filter (fun c => decide (0 < getD m c)) := by
          rw [posChildKeys_eq, hch, childKeys, ← hgchar]
        rw [heq]
        rcases hres with hres | hres
        · exact absurd (hres.symm.trans hcc) (by simp)
        · exact hres
      · right; left
        simpa using hcc
    · left
      constructor
      · have h1 : P ∈ g.1 :: rest.map Prod.fst := by simpa using hin
        rcases List.mem_cons.mp h1 with h2 | h2
        · exact absurd h2 hPg
        · exact h2
      · exact hch
  · right; left
    exact hfalse
  · right; right
    refine ⟨?_, hcc, hlen2⟩
    intro hc
    exact hnin (by rw [List.map_cons]; exact List.mem_cons_of_mem _ hc)

theorem mergeInv_erase (m : DurMap) (g : Path × List Path)
    (rest : List (Path × List Path)) (mm : DurMap) (c0 : Path)
    (hgchar : g.2 = (keysOf m).filter (fun k => dirname k == g.1))
    (hgnotin : g.1 ∉ rest.map Prod.fst)
    (hinv : MergeInv m (g :: rest) mm)
    (hck : containsKey mm g.1 = true)
    (hl : g.2.filter (fun c => decide (0 < getD m c)) = [c0]) :
    MergeInv m rest (eraseKey mm c0) := by
  obtain ⟨hsub, hP⟩ := hinv
  have hsub2 : (eraseKey mm c0).Sublist m := (eraseKey_sublist mm c0).trans hsub
  have hc0dir : dirname c0 = g.1 := by
    have hmem : c0 ∈ g.2.filter (fun c => decide (0 < getD m c)) := by
      rw [hl]
      simp
    rw [hgchar, posChildKeys_eq_filter] at hmem
    exact (mem_posChildKeys hmem).2.1
  refine ⟨hsub2, ?_⟩
  intro P hex
  have hex2 : ∃ c ∈ keysOf mm, dirname c = P := by
    obtain ⟨c, hc1, hc2⟩ := hex
    rw [keysOf_eraseKey, List.mem_filter] at hc1
    exact ⟨c, hc1.1, hc2⟩
  rcases hP P hex2 with ⟨hin, hch⟩ | hfalse | ⟨hnin, hcc, hlen2⟩
  · by_cases hPg : P = g.1
    · subst hPg
      by_cases hc0P : c0 = g.1
      · right; left
        rw [containsKey_eraseKey]
        simp [hc0P]
      · right; right
        refine ⟨hgnotin, ?_, ?_⟩
        · rw [containsKey_eraseKey, hck]
          simp
          exact fun h => hc0P h.symm
        · rw [posChildKeys_eraseKey]
          have heq : posChildKeys m (keysOf mm) g.1 = [c0] := by
            rw [posChildKeys_eq, hch, childKeys, ← hgchar, hl]
          rw [heq, List.filter_cons]
          simp [hc0P]
    · left
      constructor
      · have h1 : P ∈ g.1 :: rest.map Prod.fst := by simpa using hin
        rcases List.mem_cons.mp h1 with h2 | h2
        · exact absurd h2 hPg
        · exact h2
      · rw [childKeys_eraseKey_ne mm c0 P
          (by rw [hc0dir]; exact fun h => hPg h.symm)]
        exact hch
  · right; left
    rw [containsKey_eraseKey, hfalse]
    simp
  · by_cases hc0P : c0 = P
    · right; left
      rw [containsKey_eraseKey]
      simp [hc0P]
    · right; right
      have hPg : P ≠ g.1 := by
        intro hc
        exact hnin (by rw [List.map_cons, hc]; exact List.mem_cons_self _ _)
      refine ⟨?_, ?_, ?_⟩
      · intro hc
        exact hnin (by rw [List.map_cons]; exact List.mem_cons_of_mem _ hc)
      · rw [containsKey_eraseKey, hcc]
        simp
        exact fun h => hc0P h.symm
      · have hchk : childKeys (keysOf (eraseKey mm c0)) P = childKeys (keysOf mm) P :=
          childKeys_eraseKey_ne mm c0 P (by rw [hc0dir]; exact fun h => hPg h.symm)
        rw [posChildKeys_eq, hchk, ← posChildKeys_eq]
        exact hlen2

theorem mergeInv_step (m : DurMap) (g : Path × List Path)
    (rest : List (Path × List Path)) (mm : DurMap)
    (hgchar : g.2 = (keysOf m).filter (fun k => dirname k == g.1))
    (hgnotin : g.1 ∉ rest.map Prod.fst)
    (hinv : MergeInv m (g :: rest) mm) :
    MergeInv m rest (mergeStep m mm g) := by
  by_cases hck : containsKey mm g.1 = true
  · rcases hl : g.2.filter (fun c => decide (0 < getD m c)) with _ | ⟨c1, cs⟩
    · rw [mergeStep_keep m mm g (by rw [hl]; simp)]
      exact mergeInv_keep m g rest mm hgchar hgnotin hinv (Or.inr (by rw [hl]; simp))
    · rcases cs with _ | ⟨c2, cs2⟩
      · rw [mergeStep_single m mm g c1 hck hl]
        exact mergeInv_erase m g rest mm c1 hgchar hgnotin hinv hck hl
      · rw [mergeStep_keep m mm g (by rw [hl]; simp)]
        exact mergeInv_keep m g rest mm hgchar hgnotin hinv (Or.inr (by rw [hl]; simp))
  · rw [mergeStep_skip m mm g (by simpa using hck)]
    exact mergeInv_keep m g rest mm hgchar hgnotin hinv (Or.inl (by simpa using hck))

theorem mergeFold_inv (m : DurMap) :
    ∀ (gs : List (Path × List Path)) (mm : DurMap),
      (gs.map Prod.fst).Nodup →
      (∀ pc ∈ gs, pc.2 = (keysOf m).filter (fun k => dirname k == pc.1)) →
      MergeInv m gs mm →
      MergeInv m [] (gs.foldl (mergeStep m) mm) := by
  intro gs
  induction gs with
  | nil =>
    intro mm _ _ h
    exact h
  | cons g rest ih =>
    intro mm hnd hchar hinv
    rw [List.map_cons, List.nodup_cons] at hnd
    rw [List.foldl_cons]
    refine ih _ hnd.2 (fun pc hpc => hchar pc (List.mem_cons_of_mem _ hpc)) ?_
    exact mergeInv_step m g rest mm (hchar g (List.mem_cons_self g rest)) hnd.1 hinv

theorem mergeInv_init (m : DurMap) : MergeInv m (parent_map (keysOf m)) m := by
  refine ⟨List.Sublist.refl m, ?_⟩
  intro P hex
  left
  constructor
  · rw [mem_fst_parent_map]
    exact hex
  · rfl

theorem merge_inv (m : DurMap) :
    MergeInv m [] (merge_single_video_subfolder m) := by
  rw [merge_single_video_subfolder]
  exact mergeFold_inv m (parent_map (keysOf m)) m (nodup_fst_parent_map _)
    (fun pc hpc => parent_map_group_eq hpc) (mergeInv_init m)

theorem mergeFold_id (orig : DurMap) :
    ∀ (gs : List (Path × List Path)),
      (∀ pc ∈ gs, mergeStep orig orig pc = orig) →
      gs.foldl (mergeStep orig) orig = orig := by
  intro gs
  induction gs with
  | nil =>
    intro _
    rfl
  | cons g rest ih =>
    intro h
    rw [List.foldl_cons, h g (List.mem_cons_self g rest)]
    exact ih (fun pc hpc => h pc (List.mem_cons_of_mem _ hpc))

theorem merge_idem (m : DurMap) (hnd : (keysOf m).Nodup) :
    merge_single_video_subfolder (merge_single_video_subfolder m)
      = merge_single_video_subfolder m := by
  set F := merge_single_video_subfolder m with hF
  have hsub : F.Sublist m := merge_sublist m
  have hinv := (merge_inv m).2
  rw [merge_single_video_subfolder]
  apply mergeFold_id
  intro pc hpc
  have hchar : pc.2 = (keysOf F).filter (fun k => dirname k == pc.1) :=
    parent_map_group_eq hpc
  have hne : pc.2 ≠ [] := parent_map_group_ne_nil hpc
  by_cases hck : containsKey F pc.1 = true
  · apply mergeStep_keep
    have hvals : ∀ k ∈ keysOf F, getD F k = getD m k := fun k hk =>
      getD_sublist hnd hsub ((containsKey_iff F k).mpr hk)
    have hfil : pc.2.filter (fun c => decide (0 < getD F c))
        = posChildKeys m (keysOf F) pc.1 := by
      rw [hchar, posChildKeys_eq_filter, posChildKeys, posChildKeys]
      exact List.filter_congr (fun x hx => by rw [hvals x hx])
    rw [hfil]
    obtain ⟨c, hc⟩ := List.exists_mem_of_ne_nil pc.2 hne
    rw [hchar, List.mem_filter] at hc
    have hex : ∃ cc ∈ keysOf F, dirname cc = pc.1 :=
      ⟨c, hc.1, by simpa using hc.2⟩
    rcases hinv pc.1 hex with ⟨hin, _⟩ | hfalse | ⟨_, _, hlen⟩
    · exact absurd hin (by simp)
    · exact absurd (hfalse.symm.trans hck) (by simp)
    · exact hlen
  · exact mergeStep_skip F F pc (by simpa using hck)

/- ————————————————————————————————————————————————————————————————————————
   Lemmas about the tree builder and renderers.
   ———————————————————————————————————————————————————————————————————————— -/

theorem print_eq_add_lines (fd : DurMap) (tree : List (Path × List Path)) :
    ∀ (fuel : ℕ) (current : Path) (level : ℕ),
      print_tree_from fd tree fuel current level
        = add_lines_from fd tree fuel current level := by
  intro fuel
  induction fuel with
  | zero =>
    intro current level
    rfl
  | succ n ih =>
    intro current level
    rw [print_tree_from, add_lines_from]
    simp only [ih]

theorem groupGet_treeFold (root : Path) :
    ∀ (ks : List Path) (gs : List (Path × List Path)) (P : Path),
      groupGet (ks.foldl (fun tree folder =>
          if folder = root then tree
          else addToGroup tree (dirname folder) folder) gs) P
        = groupGet gs P ++ ks.filter (fun k => !(k == root) && (dirname k == P)) := by
  intro ks
  induction ks with
  | nil =>
    intro gs P
    simp
  | cons k rest ih =>
    intro gs P
    rw [List.foldl_cons, List.filter_cons]
    by_cases hk : k = root
    · rw [if_pos hk, ih, if_neg (by simp [hk])]
    · rw [if_neg hk, ih, groupGet_addToGroup]
      by_cases hd : dirname k = P
      · rw [if_pos hd, if_pos (by simp [hk, hd])]
        simp
      · rw [if_neg hd, if_neg (by simp [hd])]
        simp

theorem groupGet_build_tree (fd : DurMap) (root P : Path) :
    groupGet (build_tree fd root) P
      = (List.insertionSort (fun a b : Path => a.length ≤ b.length)
          (keysOf fd)).filter (fun k => !(k == root) && (dirname k == P)) := by
  rw [build_tree, groupGet_treeFold]
  rw [groupGet]
  simp

theorem children_perm (fd : DurMap) (root P : Path) :
    (sortedChildren (build_tree fd root) P).Perm
      ((keysOf fd).filter (fun k => !(k == root) && (dirname k == P))) := by
  rw [sortedChildren, groupGet_build_tree]
  exact (List.perm_insertionSort childLe _).trans
    (List.Perm.filter _ (List.perm_insertionSort _ _))

theorem below_eq_of_length {c1 c2 x : Path} (h1 : below c1 x = true)
    (h2 : below c2 x = true) (hl : c1.length = c2.length) : c1 = c2 := by
  have e1 := (below_iff_take c1 x).mp h1
  have e2 := (below_iff_take c2 x).mp h2
  rw [← e1, ← e2, hl]

theorem foldr_max_mem (l : List ℕ) (b : ℕ) : ∀ n ∈ l, n ≤ l.foldr max b := by
  induction l with
  | nil => intro n h; simp at h
  | cons a t ih =>
    intro n h
    rw [List.foldr_cons]
    rcases List.mem_cons.mp h with rfl | h
    · exact le_max_left _ _
    · exact (ih n h).trans (le_max_right _ _)

theorem foldr_max_init (l : List ℕ) (b : ℕ) : b ≤ l.foldr max b := by
  induction l with
  | nil => exact le_refl b
  | cons a t ih =>
    rw [List.foldr_cons]
    exact ih.trans (le_max_right _ _)

theorem key_length_lt_treeFuel {fd : DurMap} {root k : Path} (h : k ∈ keysOf fd) :
    k.length < treeFuel fd root := by
  rw [treeFuel]
  have := foldr_max_mem ((keysOf fd).map List.length) root.length k.length
    (List.mem_map_of_mem List.length h)
  omega

theorem keys_closed_aux (fd : DurMap) (root : Path)
    (hbelow : ∀ k ∈ keysOf fd, below root k = true)
    (hparent : ∀ k ∈ keysOf fd, k ≠ root → dirname k ∈ keysOf fd) :
    ∀ (n : ℕ) (k : Path), k.length ≤ n → k ∈ keysOf fd →
      ∀ q : Path, below root q = true → below q k = true → q ∈ keysOf fd := by
  intro n
  induction n with
  | zero =>
    intro k hk hkm q hq1 hq2
    have hk0 : k = [] := List.length_eq_zero.mp (Nat.le_zero.mp hk)
    subst hk0
    rw [below_nil_right] at hq2
    rw [hq2]
    exact hkm
  | succ n ih =>
    intro k hk hkm q hq1 hq2
    by_cases hqk : q = k
    · rw [hqk]
      exact hkm
    · by_cases hkr : k = root
      · subst hkr
        have hqr : q = k := below_antisymm hq2 hq1
        exact absurd hqr hqk
      · have hdk : dirname k ∈ keysOf fd := hparent k hkm hkr
        have hq3 : below q (dirname k) = true := below_dirname_of_ne hq2 hqk
        have hkne : k ≠ [] := by
          intro hc
          subst hc
          have hbk := hbelow [] hkm
          rw [below_nil_right] at hbk
          exact hkr hbk.symm
        have hlen : (dirname k).length ≤ n := by
          rw [dirname]
          cases k with
          | nil => exact absurd rfl hkne
          | cons y ys =>
            rw [List.length_dropLast]
            simp only [List.length_cons] at hk
            simp
            omega
        exact ih (dirname k) hlen hdk q hq1 hq3

theorem keys_closed (fd : DurMap) (root : Path)
    (hbelow : ∀ k ∈ keysOf fd, below root k = true)
    (hparent : ∀ k ∈ keysOf fd, k ≠ root → dirname k ∈ keysOf fd) :
    ∀ k ∈ keysOf fd, ∀ q : Path, below root q = true → below q k = true →
      q ∈ keysOf fd :=
  fun k hk q hq1 hq2 =>
    keys_closed_aux fd root hbelow hparent k.length k (le_refl _) hk q hq1 hq2

theorem child_mem_facts {fd : DurMap} {root P c : Path}
    (hbelow : ∀ k ∈ keysOf fd, below root k = true)
    (hc : c ∈ (keysOf fd).filter (fun k => !(k == root) && (dirname k == P))) :
    c ∈ keysOf fd ∧ c ≠ root ∧ dirname c = P ∧ c ≠ [] ∧
      c.length = P.length + 1 := by
  obtain ⟨hc1, hc2⟩ := List.mem_filter.mp hc
  have hc2s : ¬ c = root ∧ dirname c = P := by
    have h := hc2
    simp at h
    exact h
  have hcne : c ≠ [] := by
    intro hcc
    subst hcc
    have hb := hbelow [] hc1
    rw [below_nil_right] at hb
    exact hc2s.1 hb.symm
  refine ⟨hc1, hc2s.1, hc2s.2, hcne, ?_⟩
  rw [← hc2s.2, dirname]
  cases c with
  | nil => exact absurd rfl hcne
  | cons y ys => simp [List.length_dropLast]

theorem nodup_flatMap_subtrees (keys : List Path) (hnd : keys.Nodup) (L : ℕ) :
    ∀ (cs : List Path), cs.Nodup → (∀ c ∈ cs, c.length = L) →
      (cs.flatMap (fun c => keys.filter (fun k => below c k))).Nodup := by
  intro cs
  induction cs with
  | nil =>
    intro _ _
    simp
  | cons c t ih =>
    intro hcs hlen
    rw [List.flatMap_cons, List.nodup_append]
    rw [List.nodup_cons] at hcs
    refine ⟨hnd.filter _, ih hcs.2 (fun c2 h2 => hlen c2 (List.mem_cons_of_mem _ h2)), ?_⟩
    intro a ha hat
    rw [List.mem_flatMap] at hat
    obtain ⟨c2, hc2, ha2⟩ := hat
    have hb1 : below c a = true := by
      have := (List.mem_filter.mp ha).2
      simpa using this
    have hb2 : below c2 a = true := by
      have := (List.mem_filter.mp ha2).2
      simpa using this
    have hll : c.length = c2.length := by
      rw [hlen c (List.mem_cons_self c t), hlen c2 (List.mem_cons_of_mem _ hc2)]
    have hcc : c = c2 := below_eq_of_length hb1 hb2 hll
    exact hcs.1 (hcc ▸ hc2)

theorem subtree_partition (fd : DurMap) (root : Path)
    (hnd : (keysOf fd).Nodup)
    (hbelow : ∀ k ∈ keysOf fd, below root k = true)
    (hparent : ∀ k ∈ keysOf fd, k ≠ root → dirname k ∈ keysOf fd)
    (current : Path) (hcur : current ∈ keysOf fd)
    (hbc : below root current = true) :
    ((keysOf fd).filter (fun k => below current k)).Perm
      (current :: ((keysOf fd).filter
          (fun k => !(k == root) && (dirname k == current))).flatMap
        (fun c => (keysOf fd).filter (fun k => below c k))) := by
  have hcsnd : ((keysOf fd).filter
      (fun k => !(k == root) && (dirname k == current))).Nodup := hnd.filter _
  have hcslen : ∀ c ∈ (keysOf fd).filter
      (fun k => !(k == root) && (dirname k == current)),
      c.length = current.length + 1 := by
    intro c hc
    exact (child_mem_facts hbelow hc).2.2.2.2
  have hrhs_nodup : (current :: ((keysOf fd).filter
      (fun k => !(k == root) && (dirname k == current))).flatMap
        (fun c => (keysOf fd).filter (fun k => below c k))).Nodup := by
    rw [List.nodup_cons]
    constructor
    · intro hc
      rw [List.mem_flatMap] at hc
      obtain ⟨c, hc1, hc2⟩ := hc
      have hb : below c current = true := by
        have := (List.mem_filter.mp hc2).2
        simpa using this
      have := below_length hb
      have := hcslen c hc1
      omega
    · exact nodup_flatMap_subtrees (keysOf fd) hnd (current.length + 1) _ hcsnd hcslen
  rw [List.perm_ext_iff_of_nodup (hnd.filter _) hrhs_nodup]
  intro a
  rw [List.mem_cons, List.mem_flatMap]
  constructor
  · intro ha
    obtain ⟨ha1, ha2⟩ := List.mem_filter.mp ha
    have hba : below current a = true := by simpa using ha2
    by_cases hac : a = current
    · exact Or.inl hac
    · right
      have hlt : current.length < a.length := by
        have hle := below_length hba
        rcases Nat.lt_or_ge current.length a.length with h | h
        · exact h
        · exfalso
          have heq : current.length = a.length := le_antisymm hle h
          have h2 := (below_iff_take current a).mp hba
          rw [heq, List.take_length] at h2
          exact hac h2
      refine ⟨a.take (current.length + 1), ?_, ?_⟩
      · have hc0a : below (a.take (current.length + 1)) a = true :=
          below_take _ (by omega)
        have hc0cur : dirname (a.take (current.length + 1)) = current := by
          rw [dirname_take _ hlt]
          exact (below_iff_take current a).mp hba
        have hc0root : a.take (current.length + 1) ≠ root := by
          intro hc
          have h1 := below_length hbc
          have h2 : (a.take (current.length + 1)).length = current.length + 1 := by
            rw [List.length_take]
            omega
          rw [hc] at h2
          omega
        have hc0mem : a.take (current.length + 1) ∈ keysOf fd := by
          refine keys_closed fd root hbelow hparent a ha1 _ ?_ hc0a
          have h3 := dirname_below (a.take (current.length + 1))
          rw [hc0cur] at h3
          exact below_trans hbc h3
        rw [List.mem_filter]
        refine ⟨hc0mem, ?_⟩
        simp [hc0root, hc0cur]
      · rw [List.mem_filter]
        refine ⟨ha1, ?_⟩
        exact below_take _ (by omega)
  · rintro (rfl | ⟨c, hc1, hc2⟩)
    · rw [List.mem_filter]
      exact ⟨hcur, by simp [below_refl]⟩
    · rw [List.mem_filter]
      obtain ⟨hm, hb⟩ := List.mem_filter.mp hc2
      have hb2 : below c a = true := by simpa using hb
      have hdc : dirname c = current := (child_mem_facts hbelow hc1).2.2.1
      have hcc : below current c = true := by
        rw [← hdc]
        exact dirname_below c
      exact ⟨hm, below_trans hcc hb2⟩

theorem flatMap_perm_of_perm (f : Path → List Path) {l1 l2 : List Path}
    (h : l1.Perm l2) : (l1.flatMap f).Perm (l2.flatMap f) := by
  induction h with
  | nil => exact List.Perm.refl _
  | cons a h ih =>
    rw [List.flatMap_cons, List.flatMap_cons]
    exact List.Perm.append_left (f a) ih
  | swap a b l =>
    rw [List.flatMap_cons, List.flatMap_cons, List.flatMap_cons, List.flatMap_cons]
    rw [← List.append_assoc, ← List.append_assoc]
    exact List.Perm.append_right _ List.perm_append_comm
  | trans h1 h2 ih1 ih2 => exact ih1.trans ih2

theorem flatMap_perm_congr (l : List Path) (f g : Path → List Path)
    (h : ∀ c ∈ l, (f c).Perm (g c)) : (l.flatMap f).Perm (l.flatMap g) := by
  induction l with
  | nil => exact List.Perm.refl _
  | cons a t ih =>
    rw [List.flatMap_cons, List.flatMap_cons]
    exact (h a (List.mem_cons_self a t)).append
      (ih (fun c hc => h c (List.mem_cons_of_mem _ hc)))

theorem visited_perm_subtree (fd : DurMap) (root : Path)
    (hnd : (keysOf fd).Nodup)
    (hbelow : ∀ k ∈ keysOf fd, below root k = true)
    (hparent : ∀ k ∈ keysOf fd, k ≠ root → dirname k ∈ keysOf fd) :
    ∀ (fuel : ℕ) (current : Path), current ∈ keysOf fd →
      below root current = true →
      treeFuel fd root ≤ fuel + current.length →
      (visited_from (build_tree fd root) fuel current).Perm
        ((keysOf fd).filter (fun k => below current k)) := by
  intro fuel
  induction fuel with
  | zero =>
    intro current hcur hbc hfuel
    exfalso
    have := @key_length_lt_treeFuel fd root current hcur
    omega
  | succ n ih =>
    intro current hcur hbc hfuel
    rw [visited_from]
    refine List.Perm.trans ?_
      (subtree_partition fd root hnd hbelow hparent current hcur hbc).symm
    apply List.Perm.cons
    refine (flatMap_perm_of_perm _ (children_perm fd root current)).trans ?_
    apply flatMap_perm_congr
    intro c hc
    obtain ⟨hc1, hcr, hcd, hcne, hclen⟩ := child_mem_facts hbelow hc
    have hbrc : below root c = true := by
      have h3 := dirname_below c
      rw [hcd] at h3
      exact below_trans hbc h3
    exact ih c hc1 hbrc (by omega)

theorem visitedNodes_perm (fd : DurMap) (root : Path)
    (hnd : (keysOf fd).Nodup)
    (hroot : root ∈ keysOf fd)
    (hbelow : ∀ k ∈ keysOf fd, below root k = true)
    (hparent : ∀ k ∈ keysOf fd, k ≠ root → dirname k ∈ keysOf fd) :
    (visitedNodes fd root).Perm (keysOf fd) := by
  rw [visitedNodes]
  have h := visited_perm_subtree fd root hnd hbelow hparent (treeFuel fd root) root
    hroot (below_refl root) (by omega)
  have heq : (keysOf fd).filter (fun k => below root k) = keysOf fd :=
    List.filter_eq_self.mpr (fun a ha => hbelow a ha)
  rw [heq] at h
  exact h

theorem print_tree_from_length (fd : DurMap) (tree : List (Path × List Path)) :
    ∀ (fuel : ℕ) (current : Path) (level : ℕ),
      (print_tree_from fd tree fuel current level).length
        = (visited_from tree fuel current).length := by
  intro fuel
  induction fuel with
  | zero =>
    intro current level
    rfl
  | succ n ih =>
    intro current level
    rw [print_tree_from, visited_from, List.length_cons, List.length_cons,
      List.length_flatMap, List.length_flatMap]
    congr 1
    apply congrArg
    apply List.map_congr_left
    intro c _
    exact ih c (level + 1)

/- ————————————————————————————————————————————————————————————————————————
   Helpers for the claim theorems.
   ———————————————————————————————————————————————————————————————————————— -/

theorem sum_ite_filter (l : List (Path × ℚ)) (p : Path × ℚ → Bool) :
    (l.map (fun r => if p r = true then r.2 else 0)).sum
      = ((l.filter p).map Prod.snd).sum := by
  induction l with
  | nil => rfl
  | cons a t ih =>
    rw [List.map_cons, List.sum_cons, List.filter_cons]
    by_cases h : p a = true
    · rw [if_pos h, if_pos h, List.map_cons, List.sum_cons, ih]
    · rw [if_neg h, if_neg h, ih]
      ring

theorem truncSec_eq_floor {s : ℚ} (hs : 0 ≤ s) : ((truncSec s : ℤ)) = ⌊s⌋ := by
  rw [truncSec, Rat.floor_def, Int.ofNat_tdiv,
    Int.toNat_of_nonneg (Rat.num_nonneg.mpr hs)]
  exact Int.tdiv_eq_ediv (Rat.num_nonneg.mpr hs) (by exact_mod_cast Nat.zero_le s.den)

theorem accum_L1_eval : accumulate_durations ["R"]
    [(["R","a","c.mp4"], (1:ℚ)), (["R","a","b","f.mp4"], 1)]
    = [(["R","a"], 2), (["R"], 2), (["R","a","b"], 1)] := by
  simp only [accumulate_durations, List.foldl_cons, List.foldl_nil, dirname,
    List.dropLast]
  rw [creditUp_step ["R"] (1:ℚ) ["R","a"] _ (by decide) (by decide),
    (show dirname ["R","a"] = ["R"] by decide),
    creditUp_stop1,
    creditUp_step ["R"] (1:ℚ) ["R","a","b"] _ (by decide) (by decide),
    (show dirname ["R","a","b"] = ["R","a"] by decide),
    creditUp_step ["R"] (1:ℚ) ["R","a"] _ (by decide) (by decide),
    (show dirname ["R","a"] = ["R"] by decide),
    creditUp_stop1]
  simp only [addDur]
  norm_num

theorem accum_L2_eval : accumulate_durations ["R"]
    [(["R","a","b","f.mp4"], (1:ℚ)), (["R","a","c.mp4"], 1)]
    = [(["R","a","b"], 1), (["R","a"], 2), (["R"], 2)] := by
  simp only [accumulate_durations, List.foldl_cons, List.foldl_nil, dirname,
    List.dropLast]
  rw [creditUp_step ["R"] (1:ℚ) ["R","a","b"] _ (by decide) (by decide),
    (show dirname ["R","a","b"] = ["R","a"] by decide)]
  rw [creditUp_step ["R"] (1:ℚ) ["R","a"] _ (by decide) (by decide)]
  rw [(show dirname ["R","a"] = ["R"] by decide)]
  rw [creditUp_step ["R"] (1:ℚ) ["R","a"] _ (by decide) (by decide)]
  rw [(show dirname ["R","a"] = ["R"] by decide), creditUp_stop1, creditUp_stop1]
  simp only [addDur]
  norm_num
  all_goals decide

theorem accum_W_eval : accumulate_durations ["R"]
    [(["R","a.mp4"], (10:ℚ)), (["R","sub","b.mp4"], 20)]
    = [(["R"], 30), (["R","sub"], 20)] := by
  simp only [accumulate_durations, List.foldl_cons, List.foldl_nil, dirname,
    List.dropLast]
  rw [creditUp_step ["R"] (20:ℚ) ["R","sub"] _ (by decide) (by decide),
    (show dirname ["R","sub"] = ["R"] by decide),
    creditUp_stop1, creditUp_stop1]
  simp only [addDur]
  norm_num

theorem accum_C5_eval : accumulate_durations []
    [(["f.mp4"], (1:ℚ))] = [([], 1)] := by
  simp only [accumulate_durations, List.foldl_cons, List.foldl_nil, dirname,
    List.dropLast]
  rw [creditUp_stop1]
  simp only [addDur]

/- ————————————————————————————————————————————————————————————————————————
   Claim theorems.
   ———————————————————————————————————————————————————————————————————————— -/

/-- C1: for every scan root and every completion-order list of probed
(path, duration) results whose files all lie under the root, every directory
d present in the pre-collapse flat mapping built by the upward accumulator
carries as its total exactly the sum of the durations of the scanned files
lying under d, and a directory with no scanned file under it never appears
as a key of the mapping (every key has at least one scanned file under it). -/
theorem c1_accumulator_totals (root : Path) (results : List (Path × ℚ))
    (hroot : ∀ r ∈ results, below root (dirname r.1) = true) (d : Path)
    (hd : containsKey (accumulate_durations root results) d = true) :
    getD (accumulate_durations root results) d
      = ((results.filter (fun r => below d (dirname r.1))).map Prod.snd).sum
    ∧ ∃ r ∈ results, below d (dirname r.1) = true := by
  rw [containsKey_iff, mem_keysOf_accumulate] at hd
  obtain ⟨r0, hr0, hd0⟩ := hd
  have hrootd : below root d = true :=
    below_of_mem_ancestorsTo (hroot r0 hr0) hd0
  constructor
  · rw [getD_accumulate]
    have hpt : ∀ r ∈ results,
        (if d ∈ ancestorsTo root (dirname r.1) then r.2 else 0)
          = (if below d (dirname r.1) = true then r.2 else 0) := by
      intro r hr
      have hiff := mem_ancestorsTo root (dirname r.1) d (hroot r hr)
      by_cases hmem : d ∈ ancestorsTo root (dirname r.1)
      · rw [if_pos hmem, if_pos ((hiff.mp hmem).1)]
      · rw [if_neg hmem, if_neg (fun hb => hmem (hiff.mpr ⟨hb, hrootd⟩))]
    rw [List.map_congr_left hpt]
    exact sum_ite_filter results (fun r => below d (dirname r.1))
  · exact ⟨r0, hr0, ((mem_ancestorsTo root (dirname r0.1) d (hroot r0 hr0)).mp hd0).1⟩

/-- Witness for C1: root R with files R/a.mp4 (10 s) and R/sub/b.mp4 (20 s):
the accumulated total of R is 30 s, the sum of both files. -/
theorem c1_accumulator_totals_witness :
    getD (accumulate_durations ["R"] [(["R","a.mp4"], (10:ℚ)), (["R","sub","b.mp4"], 20)])
      ["R"] = 30 := by
  have h := (c1_accumulator_totals ["R"]
    [(["R","a.mp4"], (10:ℚ)), (["R","sub","b.mp4"], 20)] (by decide) ["R"]
    (by rw [accum_W_eval]; decide)).1
  rw [h, (show ([(["R","a.mp4"], (10:ℚ)), (["R","sub","b.mp4"], 20)].filter
    (fun r => below ["R"] (dirname r.1)))
      = [(["R","a.mp4"], (10:ℚ)), (["R","sub","b.mp4"], 20)] by decide)]
  norm_num

/-- C2 (amended): the Pass-Through Collapser removes a directory d from the
flat mapping only if d's immediate parent is itself a key of the mapping and
among the pre-collapse keys the parent has exactly one child with positive
accumulated duration, namely d itself; and the collapse never changes the
value of any surviving key.  (The converse direction of the original claim
fails: a directory satisfying the condition can survive when its parent was
popped from merged_map before the parent's own group was processed; see the
counterexample.) -/
theorem c2_removal_only_if (m : DurMap) (hnd : (keysOf m).Nodup) (d : Path)
    (hin : containsKey m d = true)
    (hout : containsKey (merge_single_video_subfolder m) d = false) :
    containsKey m (dirname d) = true
    ∧ posChildKeys m (keysOf m) (dirname d) = [d]
    ∧ ∀ k : Path, containsKey (merge_single_video_subfolder m) k = true →
        getD (merge_single_video_subfolder m) k = getD m k := by
  rw [merge_single_video_subfolder] at hout
  have h := mergeFold_remove m (parent_map (keysOf m)) m d
    (fun pc hpc => parent_map_group_eq hpc) hin hout
  exact ⟨h.1, h.2, fun k hk => getD_sublist hnd (merge_sublist m) hk⟩

/-- Witness for C2: in the mapping R/sub 20, R 30 the collapser removes
R/sub, whose parent R is a key with exactly one positive child. -/
theorem c2_removal_only_if_witness :
    containsKey [(["R","sub"], (20:ℚ)), (["R"], 30)] (dirname ["R","sub"]) = true
    ∧ posChildKeys [(["R","sub"], (20:ℚ)), (["R"], 30)]
        (keysOf [(["R","sub"], (20:ℚ)), (["R"], 30)]) (dirname ["R","sub"])
        = [["R","sub"]] := by
  have h := c2_removal_only_if [(["R","sub"], (20:ℚ)), (["R"], 30)] (by decide)
    ["R","sub"] (by decide) (by decide)
  exact ⟨h.1, h.2.1⟩

/-- Counterexample to C2 as stated: in the pre-collapse mapping built from
the results (R/a/c.mp4, 1) then (R/a/b/f.mp4, 1), the parent R/a is a key and
R/a/b is its unique positive-duration child among the pre-collapse keys, yet
R/a/b is not removed by the collapser (its parent R/a was popped first, so
R/a's group is skipped): the removal condition does not imply removal. -/
theorem c2_counterexample :
    containsKey (accumulate_durations ["R"]
        [(["R","a","c.mp4"], (1:ℚ)), (["R","a","b","f.mp4"], 1)]) ["R","a"] = true
    ∧ ["R","a"] = dirname ["R","a","b"]
    ∧ posChildKeys (accumulate_durations ["R"]
          [(["R","a","c.mp4"], (1:ℚ)), (["R","a","b","f.mp4"], 1)])
        (keysOf (accumulate_durations ["R"]
          [(["R","a","c.mp4"], (1:ℚ)), (["R","a","b","f.mp4"], 1)])) ["R","a"]
        = [["R","a","b"]]
    ∧ containsKey (merge_single_video_subfolder (accumulate_durations ["R"]
        [(["R","a","c.mp4"], (1:ℚ)), (["R","a","b","f.mp4"], 1)]))
        ["R","a","b"] = true := by
  rw [accum_L1_eval]
  exact ⟨by decide, by decide, by decide, by decide⟩

/-- C3 (amended): the pre-collapse accumulated totals are invariant under
permutation of the gathered (path, duration) results: any two orderings give
every directory the same accumulated duration.  (The original claim fails
for the final output: the collapsed mapping depends on completion order; see
the counterexample.) -/
theorem c3_preCollapse_perm_invariant (root : Path)
    (L1 L2 : List (Path × ℚ)) (h : L1.Perm L2) (d : Path) :
    getD (accumulate_durations root L1) d = getD (accumulate_durations root L2) d := by
  rw [getD_accumulate, getD_accumulate]
  exact List.Perm.sum_eq (h.map _)

/-- Witness for C3 (amended) at a concrete permutation of two results. -/
theorem c3_preCollapse_perm_invariant_witness :
    getD (accumulate_durations ["R"]
        [(["R","a","c.mp4"], (1:ℚ)), (["R","a","b","f.mp4"], 1)]) ["R"]
      = getD (accumulate_durations ["R"]
        [(["R","a","b","f.mp4"], (1:ℚ)), (["R","a","c.mp4"], 1)]) ["R"] :=
  c3_preCollapse_perm_invariant ["R"]
    [(["R","a","c.mp4"], (1:ℚ)), (["R","a","b","f.mp4"], 1)]
    [(["R","a","b","f.mp4"], (1:ℚ)), (["R","a","c.mp4"], 1)]
    (by decide) ["R"]

/-- Counterexample to C3 as stated: the two orderings of the same two
results (R/a/c.mp4, 1) and (R/a/b/f.mp4, 1) are a permutation of each other,
yet the collapsed mappings differ: with c.mp4 first the key R/a/b survives,
with f.mp4 first it is collapsed away. -/
theorem c3_counterexample :
    ([(["R","a","c.mp4"], (1:ℚ)), (["R","a","b","f.mp4"], 1)]).Perm
        [(["R","a","b","f.mp4"], (1:ℚ)), (["R","a","c.mp4"], 1)]
    ∧ calculate_folder_durations ["R"]
        [(["R","a","c.mp4"], (1:ℚ)), (["R","a","b","f.mp4"], 1)]
      ≠ calculate_folder_durations ["R"]
        [(["R","a","b","f.mp4"], (1:ℚ)), (["R","a","c.mp4"], 1)] := by
  constructor
  · decide
  · simp only [calculate_folder_durations]
    rw [if_neg (by simp), if_neg (by simp), accum_L1_eval, accum_L2_eval]
    decide

/-- C4: format_duration truncates the seconds to an integer, splits it into
hours, minutes and seconds, always emits the hour part (even when 0), emits
the minute part only when positive, emits the second part only when
positive; at exactly 0 seconds it returns the fixed non-empty token 0小时;
3661 s shows hour, minute and second; 3600 s shows only the hour. -/
theorem c4_format_duration_rules (s : ℚ) (hs : 0 ≤ s) :
    ((truncSec s : ℤ)) = ⌊s⌋
    ∧ format_duration s
        = String.intercalate " "
            ([toString (truncSec s / 3600) ++ "小时"]
              ++ (if (truncSec s % 3600) / 60 > 0
                  then [toString ((truncSec s % 3600) / 60) ++ "分"] else [])
              ++ (if truncSec s % 60 > 0
                  then [toString (truncSec s % 60) ++ "秒"] else []))
    ∧ (format_duration 0 = "0小时" ∧ "0小时" ≠ "")
    ∧ format_duration 3661 = "1小时 1分 1秒"
    ∧ format_duration 3600 = "1小时" := by
  refine ⟨truncSec_eq_floor hs, ?_, ⟨by decide, by decide⟩, by decide, by decide⟩
  simp only [format_duration]
  by_cases hm : (truncSec s % 3600) / 60 > 0
  · by_cases hs2 : truncSec s % 60 > 0
    · rw [if_pos hm, if_pos hs2, if_pos hm, if_pos hs2, if_neg (by simp)]
    · rw [if_pos hm, if_neg hs2, if_pos hm, if_neg hs2, if_neg (by simp)]
      simp
  · by_cases hs2 : truncSec s % 60 > 0
    · rw [if_neg hm, if_pos hs2, if_neg hm, if_pos hs2, if_neg (by simp)]
      simp
    · rw [if_neg hm, if_neg hs2, if_neg hm, if_neg hs2, if_neg (by simp)]
      simp

/-- Witness for C4 at 3661 seconds. -/
theorem c4_format_duration_rules_witness :
    format_duration 3661 = "1小时 1分 1秒" :=
  (c4_format_duration_rules 3661 (by norm_num)).2.2.2.1

/-- C5 (code bug): with the scan root "/" (the filesystem root, whose parent
is itself) and a single positive-duration file directly inside it, the root
is a key of the pre-collapse mapping, yet the collapser removes the root
entry (its own inline comment says the parent-membership guard exists to
prevent exactly this), returning the empty mapping. -/
theorem c5_root_removed_at_fs_root :
    containsKey (accumulate_durations [] [(["f.mp4"], (1:ℚ))]) [] = true
    ∧ merge_single_video_subfolder
        (accumulate_durations [] [(["f.mp4"], (1:ℚ))]) = [] := by
  rw [accum_C5_eval]
  exact ⟨by decide, by decide⟩

/-- C6: one pass of the collapser is idempotent: applying
merge_single_video_subfolder to its own output changes nothing. -/
theorem c6_collapser_idempotent (m : DurMap) (hnd : (keysOf m).Nodup) :
    merge_single_video_subfolder (merge_single_video_subfolder m)
      = merge_single_video_subfolder m :=
  merge_idem m hnd

/-- Witness for C6 on a concrete three-key mapping with a collapsible child. -/
theorem c6_collapser_idempotent_witness :
    merge_single_video_subfolder (merge_single_video_subfolder
        [(["R","a"], (2:ℚ)), (["R"], 2), (["R","a","b"], 1)])
      = merge_single_video_subfolder
        [(["R","a"], (2:ℚ)), (["R"], 2), (["R","a","b"], 1)] :=
  c6_collapser_idempotent [(["R","a"], (2:ℚ)), (["R"], 2), (["R","a","b"], 1)]
    (by decide)

/-- C7 (amended): when the scan finds zero candidate files, the aggregation
returns the empty mapping (an empty result, not an error), but the caller
does not terminate early: the main block still renders a root-only tree
whose single heading carries the zero-duration token, and still produces
the exported document with that same single heading. -/
theorem c7_empty_scan_renders_root_only (root_folder : Path) :
    calculate_folder_durations root_folder [] = []
    ∧ main_console_tree root_folder [] = [heading_line [] root_folder 0]
    ∧ main_export_doc root_folder [] = heading_line [] root_folder 0
    ∧ format_duration (getD [] root_folder) = "0小时" := by
  have h1 : calculate_folder_durations root_folder [] = [] := by
    rw [calculate_folder_durations, if_pos rfl]
  have h2 : print_tree [] root_folder = [heading_line [] root_folder 0] := rfl
  have h3 : add_lines_from [] (build_tree [] root_folder)
      (treeFuel [] root_folder) root_folder 0
        = [heading_line [] root_folder 0] := rfl
  have h4 : getD ([] : DurMap) root_folder = 0 := rfl
  refine ⟨h1, ?_, ?_, ?_⟩
  · rw [main_console_tree, h1, h2]
  · rw [main_export_doc, h1, export_markdown, export_markdown_lines, h3]
    rfl
  · rw [h4]
    decide

/-- Counterexample to C7 as stated: with scan root R and zero candidate
files, the aggregation is the empty mapping, yet the pipeline still renders
a heading line and still produces the exported document: it does not
terminate early after the empty result. -/
theorem c7_counterexample :
    calculate_folder_durations ["R"] [] = []
    ∧ main_console_tree ["R"] [] = ["# R  0小时"]
    ∧ main_export_doc ["R"] [] = "# R  0小时" :=
  ⟨by decide, by decide, by decide⟩

/-- C8 (amended): over a collapsed mapping that is ancestrally closed (the
root is a key, every key lies under the root, and every non-root key's
immediate parent is a key), the depth-first pre-order rendering started at
the root visits each key of the mapping exactly once (the visited nodes are
a permutation of the keys) and emits exactly one heading line per key.
(Without the closure hypothesis the original claim fails: the collapser can
remove an intermediate directory, leaving keys unreachable from the root
that are never rendered; see the counterexample.) -/
theorem c8_tree_rendering_closed (fd : DurMap) (root_folder : Path)
    (hnd : (keysOf fd).Nodup)
    (hroot : containsKey fd root_folder = true)
    (hbelow : ∀ k ∈ keysOf fd, below root_folder k = true)
    (hparent : ∀ k ∈ keysOf fd, k ≠ root_folder → dirname k ∈ keysOf fd) :
    (visitedNodes fd root_folder).Perm (keysOf fd)
    ∧ (print_tree fd root_folder).length = (keysOf fd).length := by
  have hroot2 := (containsKey_iff fd root_folder).mp hroot
  have hperm := visitedNodes_perm fd root_folder hnd hroot2 hbelow hparent
  refine ⟨hperm, ?_⟩
  rw [print_tree, print_tree_from_length]
  exact hperm.length_eq

/-- Witness for C8 on the mapping R 30, R/sub 20: two keys, two lines. -/
theorem c8_tree_rendering_closed_witness :
    (print_tree [(["R"], (30:ℚ)), (["R","sub"], 20)] ["R"]).length = 2 := by
  have h := (c8_tree_rendering_closed [(["R"], (30:ℚ)), (["R","sub"], 20)] ["R"]
    (by decide) (by decide) (by decide) (by decide)).2
  exact h.trans (by decide)

/-- Counterexample to C8 as stated: the collapsed mapping produced from the
results (R/a/c.mp4, 1) then (R/a/b/f.mp4, 1) has the two keys R and R/a/b,
but the rendering emits a single heading line (R/a/b's parent R/a is not a
key, so R/a/b is unreachable from the root and gets no line). -/
theorem c8_counterexample :
    (keysOf (calculate_folder_durations ["R"]
        [(["R","a","c.mp4"], (1:ℚ)), (["R","a","b","f.mp4"], 1)])).length = 2
    ∧ (print_tree (calculate_folder_durations ["R"]
        [(["R","a","c.mp4"], (1:ℚ)), (["R","a","b","f.mp4"], 1)]) ["R"]).length
      = 1 := by
  simp only [calculate_folder_durations]
  rw [if_neg (by simp), accum_L1_eval]
  exact ⟨by decide, by decide⟩

/-- C9: the sequence of heading lines printed to the console by print_tree
is identical to the sequence of lines collected by export_markdown, for
every mapping and root; the exported document is exactly those lines joined
by the blank-line separator. -/
theorem c9_console_export_agree (folder_durations : DurMap) (root_folder : Path) :
    print_tree folder_durations root_folder
        = export_markdown_lines folder_durations root_folder
    ∧ export_markdown folder_durations root_folder
        = String.intercalate "\n\n" (print_tree folder_durations root_folder) := by
  have h := print_eq_add_lines folder_durations
    (build_tree folder_durations root_folder)
    (treeFuel folder_durations root_folder) root_folder 0
  constructor
  · rw [print_tree, export_markdown_lines]
    exact h
  · rw [export_markdown, export_markdown_lines, print_tree, h]

/-- C10: the upward-accumulation loop terminates for every root and start
directory: the chain of visited directories is finite (at most one more
entry than the start's component count) and ends either at the scan root or
at a directory that is its own parent; creditUp is therefore a total
function of its inputs. -/
theorem c10_upward_ascent_terminates (root cur : Path) :
    (ancestorsTo root cur).length ≤ cur.length + 1
    ∧ ∃ last, (ancestorsTo root cur).getLast? = some last
        ∧ (last = root ∨ dirname last = last) := by
  refine ancestorsTo.induct root
    (fun c => (ancestorsTo root c).length ≤ c.length + 1
      ∧ ∃ last, (ancestorsTo root c).getLast? = some last
        ∧ (last = root ∨ dirname last = last)) ?_ ?_ ?_ cur
  · show (ancestorsTo root root).length ≤ root.length + 1
      ∧ ∃ last, (ancestorsTo root root).getLast? = some last
        ∧ (last = root ∨ dirname last = last)
    rw [ancestorsTo_stop1]
    exact ⟨by simp, root, by simp, Or.inl rfl⟩
  · intro x h1 h2
    show (ancestorsTo root x).length ≤ x.length + 1
      ∧ ∃ last, (ancestorsTo root x).getLast? = some last
        ∧ (last = root ∨ dirname last = last)
    rw [ancestorsTo_stop2 root x h1 h2]
    exact ⟨by simp, x, by simp, Or.inr h2⟩
  · intro x h1 h2 ih
    obtain ⟨hlen, last, hlast, hcase⟩ := ih
    show (ancestorsTo root x).length ≤ x.length + 1
      ∧ ∃ last, (ancestorsTo root x).getLast? = some last
        ∧ (last = root ∨ dirname last = last)
    rw [ancestorsTo_step root x h1 h2]
    constructor
    · rw [List.length_cons]
      have hx : x ≠ [] := fun hc => h2 (by rw [hc]; rfl)
      have hdl : (dirname x).length + 1 = x.length := by
        rw [dirname]
        cases x with
        | nil => exact absurd rfl hx
        | cons y ys => simp [List.length_dropLast]
      omega
    · refine ⟨last, ?_, hcase⟩
      cases hch : ancestorsTo root (dirname x) with
      | nil =>
          rw [hch] at hlast
          simp at hlast
      | cons c1 cs =>
          rw [hch] at hlast
          rw [List.getLast?_cons_cons]
          exact hlast

end VDstats
